import Mathlib

/-!
Verification development for the merge/join reconciliation subsystem of
`cudf/python/cudf/cudf/core/frame.py` (the `Frame._validate_merge_cfg`,
`Frame._merge` and `Frame._typecast_before_merge` methods).

The Python code is shallowly embedded: tables become ordered association
lists from column names to columns, dtypes become a closed inductive type,
the in-place mutations of the two input frames become explicit state
passing, exceptions become `Except`, and `warnings.warn` becomes an
accumulated list of structured warning records.
-/

namespace CudfMerge

deriving instance DecidableEq for Except

/-- The numpy `dtype.kind` characters that matter to the merge code:
signed integer, unsigned integer, floating. -/
inductive NumKind
  | i
  | u
  | f
deriving DecidableEq

/-- Closed model of the column dtypes handled by `_typecast_before_merge`:
fixed-width numerics (width in bytes), booleans, strings, datetimes (with a
resolution rank, larger = finer), and categoricals carrying the dtype of
the categories, the category values and the ordered flag. -/
inductive Dtype
  | num (kind : NumKind) (width : Nat)
  | boolean
  | str
  | datetime (res : Nat)
  | categorical (elem : Dtype) (cats : List Int) (ordered : Bool)
deriving DecidableEq

/-- `cudf.utils.dtypes.is_categorical_dtype`. -/
def Dtype.isCategorical : Dtype → Bool
  | .categorical _ _ _ => true
  | _ => false

/-- `np.issubdtype(dtype, np.number)`: true for integer and floating dtypes. -/
def Dtype.isNumber : Dtype → Bool
  | .num _ _ => true
  | _ => false

/-- `cudf.utils.dtypes.is_datetime_dtype`. -/
def Dtype.isDatetime : Dtype → Bool
  | .datetime _ => true
  | _ => false

/-- `dtype_l.kind == dtype_r.kind`, evaluated where the code evaluates it
(both sides already known numeric). -/
def Dtype.kindEq : Dtype → Dtype → Bool
  | .num k1 _, .num k2 _ => k1 == k2
  | _, _ => false

/-- The numpy dtype `<` comparison as used by Python's `max(dtype_l, dtype_r)`
in the merge code: same-kind numerics compare by width, datetimes compare by
resolution (finer is greater, so `max` is the most precise). -/
def dtypeLtB : Dtype → Dtype → Bool
  | .num k1 w1, .num k2 w2 => k1 == k2 && w1 < w2
  | .datetime r1, .datetime r2 => r1 < r2
  | _, _ => false

/-- Python `max(a, b)`: returns `b` exactly when `b > a`. -/
def maxDtype (a b : Dtype) : Dtype :=
  if dtypeLtB a b then b else a

/-- Modelled from the spec: `np.find_common_type([], [dtype_l, dtype_r])`
(numpy is an external collaborator, not part of `src/`).  Per the spec this
is "the smallest common numeric type able to represent both without
value-range loss (standard numeric promotion lattice)"; the code only
reaches it when both dtypes are numeric and their kinds differ. -/
def neededFloatWidth (w : Nat) : Nat :=
  if w ≤ 1 then 2 else if w ≤ 2 then 4 else 8

/-- Modelled from the spec: mixed-kind numeric promotion (see
`neededFloatWidth`). -/
def find_common_type : Dtype → Dtype → Dtype
  | .num .f wf, .num .f wg => .num .f (max wf wg)
  | .num .f wf, .num .i wi => .num .f (max wf (neededFloatWidth wi))
  | .num .f wf, .num .u wu => .num .f (max wf (neededFloatWidth wu))
  | .num .i wi, .num .f wf => .num .f (max wf (neededFloatWidth wi))
  | .num .u wu, .num .f wf => .num .f (max wf (neededFloatWidth wu))
  | .num .i wi, .num .u wu =>
    if wu < wi then .num .i wi
    else if 2 * wu ≤ 8 then .num .i (max wi (2 * wu))
    else .num .f 8
  | .num .u wu, .num .i wi =>
    if wu < wi then .num .i wi
    else if 2 * wu ≤ 8 then .num .i (max wi (2 * wu))
    else .num .f 8
  | .num .i wi, .num .i _ => .num .i wi
  | .num .u wu, .num .u _ => .num .u wu
  | _, _ => .num .f 8

/-- A column: a dtype plus a nullable value sequence (`none` is a null).
For a categorical column the stored values are the integer codes. -/
structure Column where
  dtype : Dtype
  vals : List (Option Int)
deriving DecidableEq

/-- `col.fillna(x)`: replace nulls by `x`. -/
def Column.fillna (c : Column) (x : Int) : Column :=
  ⟨c.dtype, c.vals.map (fun v => some (v.getD x))⟩

/-- `col.astype(dtype)`: categorical columns decode their codes through the
category values; other columns keep their values under the new dtype. -/
def Column.astype (c : Column) (d : Dtype) : Column :=
  match c.dtype with
  | .categorical _ cats _ => ⟨d, c.vals.map (fun v => v.bind (fun code => cats[code.toNat]?))⟩
  | _ => ⟨d, c.vals⟩

/-- `col.cat.codes`: the integer codes column of a categorical column. -/
def Column.catCodes (c : Column) : Column :=
  ⟨.num .i 4, c.vals⟩

/-- Interval of integers exactly representable by a numeric dtype. -/
def intBounds : Dtype → Option (Int × Int)
  | .num .i w => some (-(2 ^ (8 * w - 1)), 2 ^ (8 * w - 1) - 1)
  | .num .u w => some (0, 2 ^ (8 * w) - 1)
  | .num .f w =>
    if w ≤ 2 then some (-(2 ^ 11), 2 ^ 11)
    else if w ≤ 4 then some (-(2 ^ 24), 2 ^ 24)
    else some (-(2 ^ 53), 2 ^ 53)
  | _ => none

/-- Modelled from the spec: the external Column capability
`can_cast_safely(col, dtype) → bool` ("test whether it can be safely,
losslessly cast"; implemented in `column.py`, which is not part of `src/`).
A numeric column can be safely cast exactly when every non-null value is
representable in the target dtype. -/
def Column.can_cast_safely (c : Column) (d : Dtype) : Bool :=
  match c.dtype, intBounds d with
  | .num _ _, some (lo, hi) =>
    c.vals.all (fun v =>
      match v with
      | none => true
      | some x => lo ≤ x && x ≤ hi)
  | _, _ => false

/-- A table (`Frame`): an ordered name → column mapping, plus an index
column and a flag recording whether the index is a `MultiIndex`. -/
structure Table where
  data : List (String × Column)
  index : Column
  indexIsMulti : Bool
deriving DecidableEq

/-- `frame._data[name]` (first binding wins; names are unique in practice). -/
def Table.get (t : Table) (n : String) : Option Column :=
  (t.data.find? (fun p => p.1 == n)).map Prod.snd

/-- `list(frame._data.keys())`. -/
def Table.names (t : Table) : List String :=
  t.data.map Prod.fst

/-- `name in frame._data`. -/
def Table.hasCol (t : Table) (n : String) : Bool :=
  t.data.any (fun p => p.1 == n)

/-- `frame[name] = col`: replace the binding in place if the name exists,
otherwise append a new column at the end. -/
def Table.set (t : Table) (n : String) (c : Column) : Table :=
  if t.hasCol n then
    ⟨t.data.map (fun p => if p.1 == n then (n, c) else p), t.index, t.indexIsMulti⟩
  else
    ⟨t.data ++ [(n, c)], t.index, t.indexIsMulti⟩

/-- `frame.rename({old: new}, inplace=True)`: rename in place, keeping
column order. -/
def Table.rename1 (t : Table) (old new : String) : Table :=
  ⟨t.data.map (fun p => if p.1 == old then (new, p.2) else p), t.index, t.indexIsMulti⟩

/-- The merge-path failures, named as in the specification.
`unsupportedKeyStructure` is the `MultiIndex` `TypeError`,
`unsupportedJoinKind` the `NotImplementedError`, `ambiguousKeySpec`,
`keyCountMismatch`, `noJoinKeys`, `ambiguousOverlap` the validation
`ValueError`s, `missingKey` the `KeyError`, `incompatibleCategories` the
categorical `TypeError`, `categoricalDropped` the `ctgry_err` `ValueError`,
`unconsumedEngineColumn` the assembler's `assert`, `indexError` the stale
`range` access in the codes pass, and `internalNameError` a `NameError` or
`AttributeError` from touching an unbound name or missing column. -/
inductive MergeError
  | unsupportedKeyStructure
  | unsupportedJoinKind (how : String)
  | ambiguousKeySpec
  | keyCountMismatch
  | noJoinKeys
  | ambiguousOverlap
  | missingKey (key side : String)
  | incompatibleCategories
  | categoricalDropped (col side : String)
  | unconsumedEngineColumn
  | indexError
  | internalNameError
deriving DecidableEq

/-- One `warnings.warn(cast_warn.format(col, side, dtypeFrom, dtypeTo, chosen))`
record emitted on a precision-losing promotion. -/
structure UpcastWarning where
  col : String
  side : String
  dtypeFrom : Dtype
  dtypeTo : Dtype
  chosen : Option Dtype
deriving DecidableEq

/-- The mutable state threaded through `_typecast_before_merge`: the two
(caller-aliased) tables, the `to_categorical` list of key names marked for
code substitution, and the warnings emitted so far. -/
structure CastState where
  lhs : Table
  rhs : Table
  toCategorical : List String
  warnings : List UpcastWarning
deriving DecidableEq

/-- The tail of `casting_rules` (frame.py lines 648-672): the branches after
the `how == "left"` / `how == "right"` tests — one-sided categorical
handling with code substitution, and the `inner`/`outer` numeric and
datetime promotions. -/
def casting_rules_rest (st : CastState) (lcol rcol : String) (dl dr : Dtype) (how : String) :
    Except MergeError (Option Dtype × CastState) :=
  if dl.isCategorical then
    if how = "right" then .error (.categoricalDropped rcol "right")
    else
      match st.lhs.get lcol with
      | some c =>
        match c.dtype with
        | .categorical elem _ _ =>
          .ok (some elem,
            ⟨st.lhs.set (lcol ++ "_codes") c.catCodes, st.rhs,
              st.toCategorical ++ [lcol], st.warnings⟩)
        | _ => .error .internalNameError
      | none => .error .internalNameError
  else if dr.isCategorical then
    if how = "left" then .error (.categoricalDropped lcol "left")
    else
      match st.rhs.get rcol with
      | some c =>
        match c.dtype with
        | .categorical elem _ _ =>
          .ok (some elem,
            ⟨st.lhs, st.rhs.set (rcol ++ "_codes") c.catCodes,
              st.toCategorical ++ [rcol], st.warnings⟩)
        | _ => .error .internalNameError
      | none => .error .internalNameError
  else if how = "inner" ∨ how = "outer" then
    if dl.isNumber && dr.isNumber then
      if dl.kindEq dr then .ok (some (maxDtype dl dr), st)
      else .ok (some (find_common_type dl dr), st)
    else if dl.isDatetime && dr.isDatetime then .ok (some (maxDtype dl dr), st)
    else .ok (none, st)
  else .ok (none, st)

/-- The recursive call `casting_rules(lhs, rhs, dtype_l, dtype_r, "inner")`
made by the `how == "left"` / `how == "right"` branches: since `"inner"` is
neither `"left"` nor `"right"`, it is the dtype-equality and both-categorical
checks followed by `casting_rules_rest` with `how = "inner"`. -/
def casting_rules_inner (st : CastState) (lcol rcol : String) (dl dr : Dtype) :
    Except MergeError (Option Dtype × CastState) :=
  if dl = dr then .ok (some dl, st)
  else if dl.isCategorical && dr.isCategorical then .error .incompatibleCategories
  else casting_rules_rest st lcol rcol dl dr "inner"

/-- `casting_rules` (frame.py lines 615-672), the closure inside
`_typecast_before_merge`.  `lcol`/`rcol` are the captured key names from the
enclosing loop, and the mutations it performs on the enclosing tables,
`to_categorical` list and warning stream are threaded through `CastState`. -/
def casting_rules (st : CastState) (lcol rcol : String) (dl dr : Dtype) (how : String) :
    Except MergeError (Option Dtype × CastState) :=
  if dl = dr then .ok (some dl, st)
  else if dl.isCategorical && dr.isCategorical then .error .incompatibleCategories
  else if how = "left" then
    match st.rhs.get rcol with
    | none => .error .internalNameError
    | some c =>
      if (c.fillna 0).can_cast_safely dl then .ok (some dl, st)
      else
        match casting_rules_inner st lcol rcol dl dr with
        | .error e => .error e
        | .ok (rtn, st2) =>
          .ok (rtn,
            ⟨st2.lhs, st2.rhs, st2.toCategorical,
              st2.warnings ++ [⟨rcol, "right", dr, dl, rtn⟩]⟩)
  else if how = "right" then
    match st.lhs.get lcol with
    | none => .error .internalNameError
    | some c =>
      if (c.fillna 0).can_cast_safely dr then .ok (some dr, st)
      else
        match casting_rules_inner st lcol rcol dl dr with
        | .error e => .error e
        | .ok (rtn, st2) =>
          .ok (rtn,
            ⟨st2.lhs, st2.rhs, st2.toCategorical,
              st2.warnings ++ [⟨lcol, "left", dl, dr, rtn⟩]⟩)
  else casting_rules_rest st lcol rcol dl dr how

/-- Lexicographic byte/code-point comparison of char lists; the order Python
uses to `sorted()` strings. -/
def strLeAux : List Char → List Char → Bool
  | [], _ => true
  | _ :: _, [] => false
  | a :: as, b :: bs =>
    if a.val.toNat < b.val.toNat then true
    else if b.val.toNat < a.val.toNat then false
    else strLeAux as bs

/-- `a <= b` on strings, code-point lexicographic (Python's string order). -/
def strLe (a b : String) : Bool :=
  strLeAux a.data b.data

/-- Stable insertion used by `sortByLe`. -/
def insertSorted (le : α → α → Bool) (a : α) : List α → List α
  | [] => [a]
  | b :: t => if le a b then a :: b :: t else b :: insertSorted le a t

/-- Stable insertion sort; the model of Python's stable `sorted`. -/
def sortByLe (le : α → α → Bool) : List α → List α
  | [] => []
  | a :: t => insertSorted le a (sortByLe le t)

/-- `sorted(names)` on strings. -/
def sortStrings (l : List String) : List String :=
  sortByLe strLe l

/-- Comparison of `(name, column)` pairs by name, as in
`sorted(entries, key=lambda x: str(x[0]))`. -/
def entryLe (a b : String × Column) : Bool :=
  strLe a.1 b.1

/-- `sorted(entries, key=lambda x: str(x[0]))`. -/
def sortEntries (l : List (String × Column)) : List (String × Column) :=
  sortByLe entryLe l

/-- One iteration of the `for lcol, rcol in zip(left_on, right_on)` loop of
`_typecast_before_merge` (frame.py lines 690-704), followed by the rest of
the loop. -/
def typecastPairs (how : String) (st : CastState) :
    List (String × String) → Except MergeError CastState
  | [] => .ok st
  | (lcol, rcol) :: rest =>
    match st.lhs.get lcol, st.rhs.get rcol with
    | some cl, some cr =>
      if cl.dtype = cr.dtype then typecastPairs how st rest
      else
        match casting_rules st lcol rcol cl.dtype cr.dtype how with
        | .error e => .error e
        | .ok (none, st2) => typecastPairs how st2 rest
        | .ok (some t, st2) =>
          match st2.lhs.get lcol, st2.rhs.get rcol with
          | some cl2, some cr2 =>
            typecastPairs how
              ⟨st2.lhs.set lcol (cl2.astype t), st2.rhs.set rcol (cr2.astype t),
                st2.toCategorical, st2.warnings⟩ rest
          | _, _ => .error .internalNameError
    | _, _ => typecastPairs how st rest

/-- `_typecast_before_merge` (frame.py lines 612-706).  In index mode it
unifies the index dtypes; in key-column mode it sorts `left_on` and
`right_on` independently (`left_on = sorted(left_on)`,
`right_on = sorted(right_on)`) and walks the zipped pairs. -/
def typecast_before_merge (lhs rhs : Table) (left_on right_on : List String)
    (left_index right_index : Bool) (how : String) : Except MergeError CastState :=
  if left_index || right_index then
    match
      (if left_index && right_index then
        casting_rules ⟨lhs, rhs, [], []⟩ "" "" lhs.index.dtype rhs.index.dtype how
      else if left_index then .ok (some lhs.index.dtype, (⟨lhs, rhs, [], []⟩ : CastState))
      else .ok (some rhs.index.dtype, (⟨lhs, rhs, [], []⟩ : CastState))) with
    | .error e => .error e
    | .ok (none, _) => .error .internalNameError
    | .ok (some td, st) =>
      .ok ⟨⟨st.lhs.data, st.lhs.index.astype td, st.lhs.indexIsMulti⟩,
        ⟨st.rhs.data, st.rhs.index.astype td, st.rhs.indexIsMulti⟩, [], st.warnings⟩
  else
    typecastPairs how ⟨lhs, rhs, [], []⟩
      (List.zip (sortStrings left_on) (sortStrings right_on))

/-- `how in ["left", "inner", "outer"]` (frame.py line 388). -/
def validHow (how : String) : Bool :=
  how == "left" || how == "inner" || how == "outer"

/-- `set(lhs._data.keys()) & set(rhs._data.keys())`, determinized in `lhs`
column order. -/
def sharedNames (lhs rhs : Table) : List String :=
  (lhs.names).filter (fun n => (rhs.names).contains n)

/-- `name in left_on and name in right_on and
left_on.index(name) == right_on.index(name)` (frame.py lines 415-418). -/
def congruentKey (left_on right_on : List String) (name : String) : Bool :=
  left_on.contains name && right_on.contains name &&
    (left_on.indexOf name == right_on.indexOf name)

/-- `Frame._validate_merge_cfg` (frame.py lines 363-437), with each Python
exception mapped to its `MergeError`. -/
def validate_merge_cfg (lhs rhs : Table) (left_on right_on onKeys : List String)
    (how : String) (left_index right_index : Bool) (lsuffix rsuffix : String) :
    Except MergeError Unit :=
  if lhs.indexIsMulti || rhs.indexIsMulti then .error .unsupportedKeyStructure
  else if !validHow how then .error (.unsupportedJoinKind how)
  else if !onKeys.isEmpty && (!left_on.isEmpty || !right_on.isEmpty) then .error .ambiguousKeySpec
  else if left_on.length + (cond left_index 1 0) != right_on.length + (cond right_index 1 0) then
    .error .keyCountMismatch
  else if !(left_index || right_index) && !(!left_on.isEmpty || !right_on.isEmpty) &&
      (sharedNames lhs rhs).isEmpty then
    .error .noJoinKeys
  else if (sharedNames lhs rhs).any (fun n => !congruentKey left_on right_on n) &&
      !(!lsuffix.isEmpty || !rsuffix.isEmpty) then
    .error .ambiguousOverlap
  else if !onKeys.isEmpty then
    match onKeys.find? (fun k => !(lhs.hasCol k && rhs.hasCol k)) with
    | some k => .error (.missingKey k "both")
    | none => .ok ()
  else
    match left_on.find? (fun k => !lhs.hasCol k) with
    | some k => .error (.missingKey k "left")
    | none =>
      match right_on.find? (fun k => !rhs.hasCol k) with
      | some k => .error (.missingKey k "right")
      | none => .ok ()

/-- `gdf_data.pop(i)` for the first entry named `target`, with `break`
afterwards: returns the popped entry and the remaining pool. -/
def popFirst (target : String) :
    List (String × Column) → Option ((String × Column) × List (String × Column))
  | [] => none
  | e :: rest =>
    if e.1 = target then some (e, rest)
    else
      match popFirst target rest with
      | none => none
      | some (x, r) => some (x, e :: r)

/-- The repeated pop-by-name loops of `_merge`'s assembly: for each name in
order, pop the first matching entry (if any) from the pool. -/
def collectFirst : List String → List (String × Column) →
    List (String × Column) × List (String × Column)
  | [], pool => ([], pool)
  | n :: ns, pool =>
    match popFirst n pool with
    | none => collectFirst ns pool
    | some (e, rest) => (e :: (collectFirst ns rest).1, (collectFirst ns rest).2)

/-- The inner loop of the codes pass (frame.py lines 581-583):
`for i in range(len(gdf_data)): if gdf_data[i][0] == cat_name + "_codes":
cat_codes.append(gdf_data.pop(i))` — the `range` bound is stale after a
`pop`, so the iteration can skip the element sliding into position `i` and
can run past the shrunk list (an `IndexError`). `fuel` counts the remaining
iterations of the original `range`. -/
def codesScan (target : String) :
    Nat → Nat → List (String × Column) → List (String × Column) →
      Except MergeError (List (String × Column) × List (String × Column))
  | 0, _, pool, acc => .ok (acc, pool)
  | fuel + 1, i, pool, acc =>
    if h : i < pool.length then
      if (pool.get ⟨i, h⟩).1 = target then
        codesScan target fuel (i + 1) (pool.eraseIdx i) (acc ++ [pool.get ⟨i, h⟩])
      else codesScan target fuel (i + 1) pool acc
    else .error .indexError

/-- The outer codes-pass loop (frame.py lines 580-583):
`for cat_name in to_categorical: ...`. -/
def codesPass : List String → List (String × Column) →
    Except MergeError (List (String × Column) × List (String × Column))
  | [], pool => .ok ([], pool)
  | c :: cs, pool =>
    match codesScan (c ++ "_codes") pool.length 0 pool [] with
    | .error e => .error e
    | .ok (acc1, pool1) =>
      match codesPass cs pool1 with
      | .error e => .error e
      | .ok (acc2, pool2) => .ok (acc1 ++ acc2, pool2)

/-- The result-assembly section of `_merge` (frame.py lines 541-585).  When
`sort` is true: three pop-by-name passes over the engine output (lhs
non-key names, key names from both tables, rhs non-key names), each group
sorted by name, concatenated — any remaining engine columns are dropped.
When `sort` is false: pop by the saved original names, then the codes pass,
then `assert len(gdf_data) == 0` (`unconsumedEngineColumn` on failure). -/
def assemble (sortFlag : Bool) (lhsNames rhsNames lon ron orgNames toCategorical : List String)
    (gdf : List (String × Column)) : Except MergeError (List (String × Column)) :=
  if sortFlag then
    let s1 := collectFirst (lhsNames.filter (fun n => !(lon.contains n))) gdf
    let s2 := collectFirst
      ((lhsNames ++ rhsNames).filter (fun n => lon.contains n || ron.contains n)) s1.2
    let s3 := collectFirst (rhsNames.filter (fun n => !(ron.contains n))) s2.2
    .ok (sortEntries s1.1 ++ sortEntries s2.1 ++ sortEntries s3.1)
  else
    let r1 := collectFirst orgNames gdf
    match codesPass toCategorical r1.2 with
    | .error e => .error e
    | .ok (_, p2) =>
      if p2.length = 0 then .ok r1.1 else .error .unconsumedEngineColumn

/-- One iteration of the suffix-resolution loop (frame.py lines 499-506):
rename the colliding column in both tables and patch the first occurrence
of the name in each key list. -/
def renameStep (ls rs : String) (acc : Table × Table × List String × List String)
    (name : String) : Table × Table × List String × List String :=
  match acc with
  | (lhs, rhs, lon, ron) =>
    (lhs.rename1 name (name ++ ls), rhs.rename1 name (name ++ rs),
      if lon.contains name then lon.set (lon.indexOf name) (name ++ ls) else lon,
      if ron.contains name then ron.set (ron.indexOf name) (name ++ rs) else ron)

/-- The external join-execution engine (`libcudfxx.join.join`): inputs are
the normalized tables, key lists, join kind and index flags; output is the
flat result column list. -/
abbrev Engine := Table → Table → List String → List String → String → Bool → Bool →
  List (String × Column)

/-- `Frame._merge` (frame.py lines 439-610), as a function from the caller's
two tables to the assembled result columns together with the final states of
those (caller-aliased, possibly mutated in place) tables. -/
def merge (engine : Engine) (lhs0 rhs0 : Table) (onKeys left_on right_on : List String)
    (left_index right_index : Bool) (lsuffix rsuffix : String) (how : String)
    (sortFlag : Bool) :
    Except MergeError (List (String × Column)) × Table × Table :=
  match validate_merge_cfg lhs0 rhs0 left_on right_on onKeys how left_index right_index
      lsuffix rsuffix with
  | .error e => (.error e, lhs0, rhs0)
  | .ok _ =>
    let lon0 := if onKeys.isEmpty then left_on else onKeys
    let ron0 := if onKeys.isEmpty then right_on else onKeys
    let same := sharedNames lhs0 rhs0
    let infer := (lon0.isEmpty && ron0.isEmpty) && !(left_index && right_index)
    let lon1 := if infer then same else lon0
    let ron1 := if infer then same else ron0
    let noSuffix := same.filter (fun name => congruentKey lon1 ron1 name)
    let renamed := (same.filter (fun n => !(noSuffix.contains n))).foldl
      (renameStep lsuffix rsuffix) (lhs0, rhs0, lon1, ron1)
    let lhs1 := renamed.1
    let rhs1 := renamed.2.1
    let lon := renamed.2.2.1
    let ron := renamed.2.2.2
    let orgNames := lhs1.names ++ rhs1.names
    match typecast_before_merge lhs1 rhs1 lon ron left_index right_index how with
    | .error e => (.error e, lhs1, rhs1)
    | .ok st =>
      let gdf := engine st.lhs st.rhs lon ron how left_index right_index
      match assemble sortFlag st.lhs.names st.rhs.names lon ron orgNames
          st.toCategorical gdf with
      | .error e => (.error e, st.lhs, st.rhs)
      | .ok res => (.ok res, st.lhs, st.rhs)

/-! ### Order properties of the string comparison -/

theorem strLeAux_total (x y : List Char) : strLeAux x y = true ∨ strLeAux y x = true := by
  induction x generalizing y with
  | nil => left; rfl
  | cons a as ih =>
    cases y with
    | nil => right; rfl
    | cons b bs =>
      by_cases hab : a.val.toNat < b.val.toNat
      · left; simp [strLeAux, hab]
      · by_cases hba : b.val.toNat < a.val.toNat
        · right; simp [strLeAux, hba]
        · rcases ih bs with h | h
          · left; simp [strLeAux, hab, hba, h]
          · right; simp [strLeAux, hab, hba, h]

theorem strLeAux_antisymm (x y : List Char) (h1 : strLeAux x y = true)
    (h2 : strLeAux y x = true) : x = y := by
  induction x generalizing y with
  | nil =>
    cases y with
    | nil => rfl
    | cons b bs => simp [strLeAux] at h2
  | cons a as ih =>
    cases y with
    | nil => simp [strLeAux] at h1
    | cons b bs =>
      by_cases hab : a.val.toNat < b.val.toNat
      · exfalso
        have hba : ¬ b.val.toNat < a.val.toNat := by omega
        simp [strLeAux, hba, hab] at h2
      · by_cases hba : b.val.toNat < a.val.toNat
        · exfalso; simp [strLeAux, hab, hba] at h1
        · have hc : a = b := Char.ext (UInt32.toNat.inj (by omega))
          subst hc
          simp [strLeAux, hab] at h1 h2
          rw [ih bs h1 h2]

theorem strLeAux_trans (x y z : List Char) (h1 : strLeAux x y = true)
    (h2 : strLeAux y z = true) : strLeAux x z = true := by
  induction x generalizing y z with
  | nil => rfl
  | cons a as ih =>
    cases y with
    | nil => simp [strLeAux] at h1
    | cons b bs =>
      cases z with
      | nil => simp [strLeAux] at h2
      | cons c cs =>
        by_cases hba : b.val.toNat < a.val.toNat
        · simp [strLeAux, hba, show ¬ a.val.toNat < b.val.toNat by omega] at h1
        by_cases hcb : c.val.toNat < b.val.toNat
        · simp [strLeAux, hcb, show ¬ b.val.toNat < c.val.toNat by omega] at h2
        by_cases hac : a.val.toNat < c.val.toNat
        · simp [strLeAux, hac]
        · have hca : ¬ c.val.toNat < a.val.toNat := by
            by_cases hab : a.val.toNat < b.val.toNat <;>
              by_cases hbc : b.val.toNat < c.val.toNat <;> omega
          have hab : ¬ a.val.toNat < b.val.toNat := by omega
          have hbc : ¬ b.val.toNat < c.val.toNat := by omega
          simp [strLeAux, hab, hba] at h1
          simp [strLeAux, hbc, hcb] at h2
          simp [strLeAux, hac, hca]
          exact ih bs cs h1 h2

theorem strLe_total (a b : String) : strLe a b = true ∨ strLe b a = true :=
  strLeAux_total a.data b.data

theorem strLe_antisymm {a b : String} (h1 : strLe a b = true) (h2 : strLe b a = true) :
    a = b := by
  cases a with
  | mk da =>
    cases b with
    | mk db => exact congrArg String.mk (strLeAux_antisymm da db h1 h2)

theorem strLe_trans {a b c : String} (h1 : strLe a b = true) (h2 : strLe b c = true) :
    strLe a c = true :=
  strLeAux_trans a.data b.data c.data h1 h2

/-! ### The insertion sort and its properties -/

theorem perm_insertSorted (le : α → α → Bool) (a : α) (l : List α) :
    (insertSorted le a l).Perm (a :: l) := by
  induction l with
  | nil => exact List.Perm.refl _
  | cons b t ih =>
    by_cases h : le a b = true
    · simp [insertSorted, h]
    · simp only [insertSorted, h]
      simp only [Bool.false_eq_true, if_false]
      exact (ih.cons b).trans (List.Perm.swap a b t)

theorem perm_sortByLe (le : α → α → Bool) (l : List α) : (sortByLe le l).Perm l := by
  induction l with
  | nil => exact List.Perm.refl _
  | cons a t ih => exact (perm_insertSorted le a (sortByLe le t)).trans (ih.cons a)

theorem mem_insertSorted (le : α → α → Bool) (a x : α) (l : List α) :
    x ∈ insertSorted le a l ↔ x = a ∨ x ∈ l := by
  induction l with
  | nil => simp [insertSorted]
  | cons b t ih =>
    by_cases h : le a b = true
    · simp [insertSorted, h]
    · simp only [insertSorted, h, Bool.false_eq_true, if_false, List.mem_cons, ih]
      tauto

theorem sorted_insertSorted (le : α → α → Bool)
    (htot : ∀ x y, le x y = true ∨ le y x = true)
    (htr : ∀ x y z, le x y = true → le y z = true → le x z = true)
    (a : α) (l : List α) (h : l.Sorted (fun x y => le x y = true)) :
    (insertSorted le a l).Sorted (fun x y => le x y = true) := by
  induction l with
  | nil => simp [insertSorted]
  | cons b t ih =>
    rcases List.sorted_cons.mp h with ⟨hb, ht⟩
    by_cases hab : le a b = true
    · simp only [insertSorted, hab, if_true]
      refine List.sorted_cons.mpr ⟨?_, h⟩
      intro x hx
      rcases List.mem_cons.mp hx with rfl | hx
      · exact hab
      · exact htr a b x hab (hb x hx)
    · simp only [insertSorted, hab, Bool.false_eq_true, if_false]
      refine List.sorted_cons.mpr ⟨?_, ih ht⟩
      intro x hx
      rcases (mem_insertSorted le a x t).mp hx with rfl | hx
      · rcases htot x b with h' | h'
        · exact absurd h' hab
        · exact h'
      · exact hb x hx

theorem sorted_sortByLe (le : α → α → Bool)
    (htot : ∀ x y, le x y = true ∨ le y x = true)
    (htr : ∀ x y z, le x y = true → le y z = true → le x z = true)
    (l : List α) : (sortByLe le l).Sorted (fun x y => le x y = true) := by
  induction l with
  | nil => simp [sortByLe]
  | cons a t ih => exact sorted_insertSorted le htot htr a (sortByLe le t) ih

theorem sortStrings_eq_of_perm {l l' : List String} (h : l.Perm l') :
    sortStrings l = sortStrings l' :=
  @List.eq_of_perm_of_sorted String (fun x y => strLe x y = true)
    ⟨fun _ _ h1 h2 => strLe_antisymm h1 h2⟩ _ _
    (((perm_sortByLe strLe l).trans h).trans (perm_sortByLe strLe l').symm)
    (sorted_sortByLe strLe strLe_total (fun _ _ _ => strLe_trans) l)
    (sorted_sortByLe strLe strLe_total (fun _ _ _ => strLe_trans) l')

theorem map_fst_insertSorted (e : String × Column) (l : List (String × Column)) :
    (insertSorted entryLe e l).map Prod.fst = insertSorted strLe e.1 (l.map Prod.fst) := by
  induction l with
  | nil => rfl
  | cons f t ih =>
    by_cases h : entryLe e f = true
    · have h' : strLe e.1 f.1 = true := h
      simp [insertSorted, h, h']
    · have h' : ¬ strLe e.1 f.1 = true := h
      simp [insertSorted, h, h', ih]

theorem map_fst_sortEntries (l : List (String × Column)) :
    (sortEntries l).map Prod.fst = sortStrings (l.map Prod.fst) := by
  induction l with
  | nil => rfl
  | cons e t ih =>
    simp only [sortEntries, sortByLe, List.map_cons, sortStrings] at *
    rw [map_fst_insertSorted, ih]

/-! ### Pool-consumption lemmas for the assembler -/

theorem map_fst_filter (q : String → Bool) (l : List (String × Column)) :
    (l.filter (fun e => q e.1)).map Prod.fst = (l.map Prod.fst).filter q := by
  induction l with
  | nil => rfl
  | cons a t ih => by_cases h : q a.1 = true <;> simp [h, ih]

theorem perm_get_cons_eraseIdx (l : List α) (i : Nat) (h : i < l.length) :
    l.Perm (l.get ⟨i, h⟩ :: l.eraseIdx i) := by
  induction l generalizing i with
  | nil => simp at h
  | cons a t ih =>
    cases i with
    | zero => simp
    | succ j =>
      simp only [List.get, List.eraseIdx]
      have hj : j < t.length := by simpa using h
      exact (List.Perm.cons a (ih j hj)).trans (List.Perm.swap _ _ _)

theorem popFirst_eq_none_iff (t : String) (pool : List (String × Column)) :
    popFirst t pool = none ↔ ∀ e ∈ pool, ¬ e.1 = t := by
  induction pool with
  | nil => simp [popFirst]
  | cons a p ih =>
    by_cases ha : a.1 = t
    · simp only [popFirst, if_pos ha]
      constructor
      · intro hv; cases hv
      · intro hall; exact absurd ha (hall a (List.mem_cons_self a p))
    · cases hp : popFirst t p with
      | none =>
        simp only [popFirst, if_neg ha, hp]
        constructor
        · intro _ e he
          rcases List.mem_cons.mp he with rfl | he
          · exact ha
          · exact ih.mp hp e he
        · intro _; trivial
      | some v =>
        simp only [popFirst, if_neg ha, hp]
        constructor
        · intro hv; cases hv
        · intro hall
          have hn := ih.mpr (fun e he => hall e (List.mem_cons_of_mem a he))
          rw [hn] at hp; cases hp

theorem popFirst_some_fst (t : String) (pool : List (String × Column))
    (e : String × Column) (rest : List (String × Column))
    (h : popFirst t pool = some (e, rest)) : e.1 = t := by
  induction pool generalizing e rest with
  | nil => cases h
  | cons a p ih =>
    by_cases ha : a.1 = t
    · simp only [popFirst, if_pos ha, Option.some.injEq, Prod.mk.injEq] at h
      rw [← h.1]; exact ha
    · cases hp : popFirst t p with
      | none =>
        simp only [popFirst, if_neg ha, hp] at h
        exact Option.noConfusion h
      | some v =>
        cases v with
        | mk x r =>
          simp only [popFirst, if_neg ha, hp, Option.some.injEq, Prod.mk.injEq] at h
          rcases h with ⟨rfl, rfl⟩
          exact ih x r hp

theorem popFirst_some_perm (t : String) (pool : List (String × Column))
    (e : String × Column) (rest : List (String × Column))
    (h : popFirst t pool = some (e, rest)) : pool.Perm (e :: rest) := by
  induction pool generalizing e rest with
  | nil => cases h
  | cons a p ih =>
    by_cases ha : a.1 = t
    · simp only [popFirst, if_pos ha, Option.some.injEq, Prod.mk.injEq] at h
      rw [h.1, h.2]
    · cases hp : popFirst t p with
      | none =>
        simp only [popFirst, if_neg ha, hp] at h
        exact Option.noConfusion h
      | some v =>
        cases v with
        | mk x r =>
          simp only [popFirst, if_neg ha, hp, Option.some.injEq, Prod.mk.injEq] at h
          rcases h with ⟨rfl, rfl⟩
          exact ((ih x r hp).cons a).trans (List.Perm.swap _ _ _)

theorem popFirst_some_rest_of_nodup (t : String) (pool : List (String × Column))
    (hnd : (pool.map Prod.fst).Nodup)
    (e : String × Column) (rest : List (String × Column))
    (h : popFirst t pool = some (e, rest)) :
    rest = pool.filter (fun x => !(x.1 == t)) := by
  induction pool generalizing e rest with
  | nil => cases h
  | cons a p ih =>
    simp only [List.map_cons, List.nodup_cons] at hnd
    by_cases ha : a.1 = t
    · simp only [popFirst, if_pos ha, Option.some.injEq, Prod.mk.injEq] at h
      rw [List.filter_cons_of_neg (by simp [ha])]
      have hp : ∀ x ∈ p, (!(x.1 == t)) = true := by
        intro x hx
        have hne : x.1 ≠ a.1 := by
          intro hxe
          exact hnd.1 (hxe ▸ List.mem_map_of_mem Prod.fst hx)
        simp [ha ▸ hne]
      rw [List.filter_eq_self.mpr hp, ← h.2]
    · cases hp : popFirst t p with
      | none =>
        simp only [popFirst, if_neg ha, hp] at h
        exact Option.noConfusion h
      | some v =>
        cases v with
        | mk x r =>
          simp only [popFirst, if_neg ha, hp, Option.some.injEq, Prod.mk.injEq] at h
          rcases h with ⟨rfl, rfl⟩
          rw [List.filter_cons_of_pos (by simp [ha]), ih hnd.2 x r hp]

theorem collectFirst_perm (names : List String) (pool : List (String × Column)) :
    pool.Perm ((collectFirst names pool).1 ++ (collectFirst names pool).2) := by
  induction names generalizing pool with
  | nil => exact List.Perm.refl _
  | cons n ns ih =>
    cases hp : popFirst n pool with
    | none => simpa [collectFirst, hp] using ih pool
    | some v =>
      cases v with
      | mk e rest =>
        simp only [collectFirst, hp, List.cons_append]
        exact (popFirst_some_perm n pool e rest hp).trans ((ih rest).cons e)

theorem collectFirst_names (names : List String) (pool : List (String × Column))
    (hnd : (pool.map Prod.fst).Nodup) :
    ((collectFirst names pool).1.map Prod.fst).Perm
        ((pool.map Prod.fst).filter (fun n => names.contains n)) ∧
      (collectFirst names pool).2.map Prod.fst =
        (pool.map Prod.fst).filter (fun n => !(names.contains n)) := by
  induction names generalizing pool with
  | nil =>
    constructor
    · simp [collectFirst]
    · simp [collectFirst, List.filter_eq_self]
  | cons n ns ih =>
    cases hp : popFirst n pool with
    | none =>
      have hno : ∀ m ∈ pool.map Prod.fst, ¬ m = n := by
        intro m hm
        rcases List.mem_map.mp hm with ⟨e, he, rfl⟩
        exact (popFirst_eq_none_iff n pool).mp hp e he
      have hc1 : ∀ m ∈ pool.map Prod.fst,
          ((n :: ns).contains m) = (ns.contains m) := by
        intro m hm
        simp [List.mem_cons, hno m hm]
      have hc2 : ∀ m ∈ pool.map Prod.fst,
          (!((n :: ns).contains m)) = (!(ns.contains m)) := by
        intro m hm
        rw [hc1 m hm]
      constructor
      · simp only [collectFirst, hp]
        rw [List.filter_congr hc1]
        exact (ih pool hnd).1
      · simp only [collectFirst, hp]
        rw [List.filter_congr hc2]
        exact (ih pool hnd).2
    | some v =>
      cases v with
      | mk e rest =>
        have hefst : e.1 = n := popFirst_some_fst n pool e rest hp
        have hrest : rest = pool.filter (fun x => !(x.1 == n)) :=
          popFirst_some_rest_of_nodup n pool hnd e rest hp
        have hrestmap : rest.map Prod.fst = (pool.map Prod.fst).filter (fun m => !(m == n)) := by
          rw [hrest]
          exact map_fst_filter (fun m => !(m == n)) pool
        have hrestnd : (rest.map Prod.fst).Nodup := by
          rw [hrestmap]
          exact hnd.filter _
        have hrestno : ∀ m ∈ rest.map Prod.fst, ¬ m = n := by
          intro m hm
          rw [hrestmap] at hm
          rcases List.mem_filter.mp hm with ⟨_, hne⟩
          simpa using hne
        rcases ih rest hrestnd with ⟨iht, ihr⟩
        constructor
        · simp only [collectFirst, hp, List.map_cons, hefst]
          have hpf : (pool.map Prod.fst).Perm (n :: rest.map Prod.fst) := by
            have hq := (popFirst_some_perm n pool e rest hp).map Prod.fst
            simpa [hefst] using hq
          have hstep : ((pool.map Prod.fst).filter (fun m => (n :: ns).contains m)).Perm
              ((n :: rest.map Prod.fst).filter (fun m => (n :: ns).contains m)) :=
            hpf.filter _
          have hhead : ((n :: rest.map Prod.fst).filter (fun m => (n :: ns).contains m)) =
              n :: ((rest.map Prod.fst).filter (fun m => ns.contains m)) := by
            rw [List.filter_cons_of_pos (by simp)]
            congr 1
            refine List.filter_congr ?_
            intro m hm
            simp [List.mem_cons, hrestno m hm]
          refine List.Perm.trans ?_ (hstep.symm)
          rw [hhead]
          exact iht.cons n
        · simp only [collectFirst, hp]
          rw [ihr, hrestmap, List.filter_filter]
          refine List.filter_congr ?_
          intro m _
          by_cases hmn : m = n <;> by_cases hms : m ∈ ns <;>
            simp [hmn, hms, List.mem_cons]

theorem codesScan_perm (target : String) (fuel i : Nat) (pool acc acc2 pool2 : List (String × Column))
    (h : codesScan target fuel i pool acc = .ok (acc2, pool2)) :
    (acc ++ pool).Perm (acc2 ++ pool2) := by
  induction fuel generalizing i pool acc with
  | zero =>
    simp only [codesScan, Except.ok.injEq, Prod.mk.injEq] at h
    rw [h.1, h.2]
  | succ f ih =>
    simp only [codesScan] at h
    by_cases hl : i < pool.length
    · rw [dif_pos hl] at h
      by_cases he : (pool.get ⟨i, hl⟩).1 = target
      · rw [if_pos he] at h
        have hperm : pool.Perm (pool.get ⟨i, hl⟩ :: pool.eraseIdx i) :=
          perm_get_cons_eraseIdx pool i hl
        refine List.Perm.trans ?_ (ih (i + 1) (pool.eraseIdx i) (acc ++ [pool.get ⟨i, hl⟩]) h)
        have heq : (acc ++ [pool.get ⟨i, hl⟩]) ++ pool.eraseIdx i =
            acc ++ (pool.get ⟨i, hl⟩ :: pool.eraseIdx i) := by simp
        rw [heq]
        exact hperm.append_left acc
      · rw [if_neg he] at h
        exact ih (i + 1) pool acc h
    · rw [dif_neg hl] at h
      exact Except.noConfusion h

theorem codesPass_perm (cats : List String) (pool acc2 pool2 : List (String × Column))
    (h : codesPass cats pool = .ok (acc2, pool2)) : pool.Perm (acc2 ++ pool2) := by
  induction cats generalizing pool acc2 pool2 with
  | nil =>
    simp only [codesPass, Except.ok.injEq, Prod.mk.injEq] at h
    rw [← h.1, ← h.2]
    exact List.Perm.refl _
  | cons c cs ih =>
    simp only [codesPass] at h
    cases hs : codesScan (c ++ "_codes") pool.length 0 pool [] with
    | error e => rw [hs] at h; exact Except.noConfusion h
    | ok v =>
      cases v with
      | mk a1 p1 =>
        rw [hs] at h
        dsimp only at h
        cases hp : codesPass cs p1 with
        | error e => rw [hp] at h; exact Except.noConfusion h
        | ok w =>
          cases w with
          | mk a2 p2 =>
            rw [hp] at h
            simp only [Except.ok.injEq, Prod.mk.injEq] at h
            rcases h with ⟨rfl, rfl⟩
            have h1 : pool.Perm (a1 ++ p1) := by
              simpa using codesScan_perm (c ++ "_codes") pool.length 0 pool [] a1 p1 hs
            have h2 : p1.Perm (a2 ++ p2) := ih p1 a2 p2 hp
            rw [List.append_assoc]
            exact h1.trans (h2.append_left a1)

/-! ### Structural lemmas about `casting_rules` -/

theorem casting_rules_inner_eq (st : CastState) (lcol rcol : String) (dl dr : Dtype) :
    casting_rules st lcol rcol dl dr "inner" = casting_rules_inner st lcol rcol dl dr := by
  by_cases h1 : dl = dr
  · simp [casting_rules, casting_rules_inner, h1]
  · by_cases h2 : (dl.isCategorical && dr.isCategorical) = true
    · simp [casting_rules, casting_rules_inner, h1, h2]
    · simp [casting_rules, casting_rules_inner, h1, h2]

theorem casting_rules_rest_no_catdrop (st : CastState) (lcol rcol : String) (dl dr : Dtype)
    (how : String) (h1 : ¬ how = "right") (h2 : ¬ how = "left") (c s : String) :
    casting_rules_rest st lcol rcol dl dr how ≠ .error (.categoricalDropped c s) := by
  unfold casting_rules_rest
  by_cases hdl : dl.isCategorical = true
  · simp only [hdl, if_true, if_neg h1]
    cases st.lhs.get lcol with
    | none => simp
    | some cc =>
      rcases cc with ⟨cdt, cvals⟩
      cases cdt <;> simp
  · by_cases hdr : dr.isCategorical = true
    · simp only [hdl, hdr, Bool.false_eq_true, if_false, if_true, if_neg h2]
      cases st.rhs.get rcol with
      | none => simp
      | some cc =>
        rcases cc with ⟨cdt, cvals⟩
        cases cdt <;> simp
    · simp only [hdl, hdr, Bool.false_eq_true, if_false]
      split_ifs <;> simp

theorem casting_rules_inner_no_catdrop (st : CastState) (lcol rcol : String) (dl dr : Dtype)
    (c s : String) :
    casting_rules_inner st lcol rcol dl dr ≠ .error (.categoricalDropped c s) := by
  unfold casting_rules_inner
  split_ifs with h1 h2
  · simp
  · simp
  · exact casting_rules_rest_no_catdrop st lcol rcol dl dr "inner" (by decide) (by decide) c s

theorem casting_rules_inner_noncat (st : CastState) (lcol rcol : String) (dl dr : Dtype)
    (hl : dl.isCategorical = false) (hr : dr.isCategorical = false) :
    ∃ t, casting_rules_inner st lcol rcol dl dr = .ok (t, st) := by
  by_cases he : dl = dr
  · exact ⟨some dl, by simp [casting_rules_inner, he]⟩
  · unfold casting_rules_inner casting_rules_rest
    rw [if_neg he]
    simp only [hl, hr, Bool.false_and, Bool.false_eq_true, if_false]
    rw [if_pos (Or.inl trivial)]
    split_ifs <;> exact ⟨_, rfl⟩

theorem can_cast_safely_cat (c : Column) (el : Dtype) (cats : List Int) (o : Bool) :
    c.can_cast_safely (.categorical el cats o) = false := by
  rcases c with ⟨cdt, v⟩
  cases cdt <;> simp [Column.can_cast_safely, intBounds]

theorem Table.hasCol_set_self (t : Table) (n : String) (c : Column) :
    (t.set n c).hasCol n = true := by
  unfold Table.set
  by_cases h : t.hasCol n
  · rw [if_pos h]
    unfold Table.hasCol at h ⊢
    simp only [List.any_eq_true] at h ⊢
    rcases h with ⟨p, hp, hpn⟩
    refine ⟨(n, c), ?_, by simp⟩
    have hmem := List.mem_map_of_mem (fun p => if p.1 == n then (n, c) else p) hp
    simpa [hpn] using hmem
  · rw [if_neg h]
    simp [Table.hasCol]

/-! ### Example fixtures shared by the concrete witnesses -/

/-- A plain (empty) index column for the example tables. -/
def exIdx : Column := ⟨.num .i 8, []⟩

/-! ### Claims C8, C9, C6 about the casting-rule algorithm -/

/-- C8: type unification is reflexive — for every dtype `T` and every join
kind `how`, `casting_rules` on equal dtypes returns `T` (and performs no
state change): the first branch of the algorithm fires. -/
theorem c8_unify_reflexive (st : CastState) (lcol rcol : String) (T : Dtype) (how : String) :
    casting_rules st lcol rcol T T how = .ok (some T, st) := by
  unfold casting_rules
  rw [if_pos rfl]

/-- C9: for every pair of unequal categorical dtypes on the two sides and
every join kind `how`, unification fails with `IncompatibleCategories`; the
both-categorical branch fires before any `how`-dependent reconciliation. -/
theorem c9_incompatible_categories (st : CastState) (lcol rcol : String)
    (el er : Dtype) (cl cr : List Int) (ol og : Bool) (how : String)
    (hne : Dtype.categorical el cl ol ≠ Dtype.categorical er cr og) :
    casting_rules st lcol rcol (.categorical el cl ol) (.categorical er cr og) how =
      .error .incompatibleCategories := by
  unfold casting_rules
  rw [if_neg hne]
  simp [Dtype.isCategorical]

/-- Witness for C9 at unequal category sets `[1]` vs `[2]`. -/
theorem c9_witness :
    casting_rules ⟨⟨[], exIdx, false⟩, ⟨[], exIdx, false⟩, [], []⟩ "a" "a"
        (.categorical (.num .i 8) [1] false) (.categorical (.num .i 8) [2] false) "inner" =
      .error .incompatibleCategories :=
  c9_incompatible_categories _ "a" "a" (.num .i 8) (.num .i 8) [1] [2] false false "inner"
    (by decide)

/-- C6: for `how = "left"` with unequal non-categorical dtypes, unification
fills the nulls of the right key column with `0` and tests a safe lossless
cast to the left dtype; if safe the target is the left dtype with no
warning, otherwise the target is the recursive `how = "inner"` result, a
warning naming the column and both dtypes is recorded, and the call still
succeeds (non-fatal) with that supertype. -/
theorem c6_left_unification (st : CastState) (lcol rcol : String) (dl dr : Dtype) (c : Column)
    (hl : dl.isCategorical = false) (hr : dr.isCategorical = false)
    (hne : dl ≠ dr) (hc : st.rhs.get rcol = some c) :
    ∃ t, casting_rules st lcol rcol dl dr "inner" = .ok (t, st) ∧
      casting_rules st lcol rcol dl dr "left" =
        (if (c.fillna 0).can_cast_safely dl = true then .ok (some dl, st)
         else .ok (t, ⟨st.lhs, st.rhs, st.toCategorical,
           st.warnings ++ [⟨rcol, "right", dr, dl, t⟩]⟩)) := by
  rcases casting_rules_inner_noncat st lcol rcol dl dr hl hr with ⟨t, ht⟩
  refine ⟨t, ?_, ?_⟩
  · rw [casting_rules_inner_eq]
    exact ht
  · unfold casting_rules
    rw [if_neg hne]
    simp only [hl, Bool.false_and, Bool.false_eq_true, if_false]
    rw [if_pos trivial, hc]
    dsimp only
    by_cases hs : (c.fillna 0).can_cast_safely dl = true
    · rw [if_pos hs, if_pos hs]
    · rw [if_neg hs, if_neg hs, ht]

/-- The right table of the C6 witness: column `k` holds `2^40`, which does
not fit in `int32`, so the safe-cast test fails. -/
def w6rhs : Table := ⟨[("k", ⟨.num .i 8, [some 1099511627776]⟩)], exIdx, false⟩

/-- The cast state of the C6 witness. -/
def w6st : CastState := ⟨⟨[], exIdx, false⟩, w6rhs, [], []⟩

/-- Witness for C6 at `int32` vs `int64` with an unsafe right column. -/
theorem c6_witness :
    ∃ t, casting_rules w6st "k" "k" (.num .i 4) (.num .i 8) "inner" = .ok (t, w6st) ∧
      casting_rules w6st "k" "k" (.num .i 4) (.num .i 8) "left" =
        (if ((⟨.num .i 8, [some 1099511627776]⟩ : Column).fillna 0).can_cast_safely
            (.num .i 4) = true then
          .ok (some (.num .i 4), w6st)
         else .ok (t, ⟨w6st.lhs, w6st.rhs, w6st.toCategorical,
           w6st.warnings ++ [⟨"k", "right", .num .i 8, .num .i 4, t⟩]⟩)) :=
  c6_left_unification w6st "k" "k" (.num .i 4) (.num .i 8) ⟨.num .i 8, [some 1099511627776]⟩
    rfl rfl (by decide) rfl

/-! ### Claim C2: the CategoricalDropped raise sites are unreachable -/

/-- Left table of the C2 counterexample: the key `a` is categorical. -/
def c2lhs : Table :=
  ⟨[("a", ⟨.categorical (.num .i 8) [10, 20] false, [some 0]⟩)], exIdx, false⟩

/-- Right table of the C2 counterexample: the key `a` is plain `int64`. -/
def c2rhs : Table := ⟨[("a", ⟨.num .i 8, [some 10]⟩)], exIdx, false⟩

/-- A join engine double returning an empty output (never reached by the
merges below, which fail during validation). -/
def dummyEngine : Engine := fun _ _ _ _ _ _ _ => []

/-- C2 counterexample: a merge request with `how = "right"` whose left key
column is categorical and whose right key column is not fails with
`UnsupportedJoinKind "right"` (the `NotImplementedError` of validation),
not with `CategoricalDropped` as the claim states — validation rejects
`"right"` before type unification can run. -/
theorem c2_counterexample :
    (merge dummyEngine c2lhs c2rhs [] ["a"] ["a"] false false "" "" "right" false).1 =
      .error (.unsupportedJoinKind "right") := by decide

/-- C2 (amended): for every join kind that survives validation
(`left`/`inner`/`outer`), `casting_rules` never fails with
`CategoricalDropped` — the `ctgry_err` raise sites require `how = "right"`
(resp. `"left"`), but those values are captured by the earlier
`how == "left"` / `how == "right"` branches, and the recursive call always
passes `"inner"`; `how = "right"` itself never reaches unification
(see `c2_counterexample`). -/
theorem c2_no_categorical_dropped (st : CastState) (lcol rcol : String) (dl dr : Dtype)
    (how : String) (h : how = "left" ∨ how = "inner" ∨ how = "outer") (c s : String) :
    casting_rules st lcol rcol dl dr how ≠ .error (.categoricalDropped c s) := by
  unfold casting_rules
  split_ifs with h1 h2 h3 h4
  · simp
  · simp
  · cases hg : st.rhs.get rcol with
    | none => simp
    | some cc =>
      dsimp only
      split_ifs with h5
      · simp
      · cases hi : casting_rules_inner st lcol rcol dl dr with
        | error e =>
          dsimp only
          intro hcontra
          exact casting_rules_inner_no_catdrop st lcol rcol dl dr c s (hi.trans hcontra)
        | ok v =>
          rcases v with ⟨rtn, st2⟩
          simp
  · cases hg : st.lhs.get lcol with
    | none => simp
    | some cc =>
      dsimp only
      split_ifs with h5
      · simp
      · cases hi : casting_rules_inner st lcol rcol dl dr with
        | error e =>
          dsimp only
          intro hcontra
          exact casting_rules_inner_no_catdrop st lcol rcol dl dr c s (hi.trans hcontra)
        | ok v =>
          rcases v with ⟨rtn, st2⟩
          simp
  · exact casting_rules_rest_no_catdrop st lcol rcol dl dr how h4 h3 c s

/-- Witness for the amended C2 at the claim's symmetric case: a validated
`how = "left"` with a categorical key only on the right side does not raise
`CategoricalDropped`. -/
theorem c2_witness :
    casting_rules ⟨⟨[], exIdx, false⟩, ⟨[], exIdx, false⟩, [], []⟩ "a" "a"
        (.num .i 4) (.categorical (.num .i 8) [1] false) "left" ≠
      .error (.categoricalDropped "a" "left") :=
  c2_no_categorical_dropped ⟨⟨[], exIdx, false⟩, ⟨[], exIdx, false⟩, [], []⟩ "a" "a"
    (.num .i 4) (.categorical (.num .i 8) [1] false) "left" (Or.inl rfl) "a" "left"

/-! ### Claim C1: the independent sort of the key lists changes the pairing -/

/-- Left table of the C1 failing input: `a : int32`, `b : str`. -/
def c1lhs : Table :=
  ⟨[("a", ⟨.num .i 4, [some 1]⟩), ("b", ⟨.str, [some 0]⟩)], exIdx, false⟩

/-- Right table of the C1 failing input: `b : int64`, `a : str`.  The
requested correspondence is `a ↔ b` (`int32`/`int64`, needing unification
to `int64`) and `b ↔ a` (`str`/`str`, equal). -/
def c1rhs : Table :=
  ⟨[("b", ⟨.num .i 8, [some 1]⟩), ("a", ⟨.str, [some 0]⟩)], exIdx, false⟩

/-- C1 (code-bug evidence): with `left_on = ["a","b"]`, `right_on = ["b","a"]`,
`_typecast_before_merge` sorts each list independently, so it processes the
scrambled pairs `(a,a)` and `(b,b)` (`int32`/`str` and `str`/`int64`, which
unify to nothing) and leaves both tables completely uncast — even though the
original positional pair `(a,b)` has unequal dtypes that `casting_rules`
unifies to `int64` under `"inner"` (second conjunct).  The positional pair
is therefore not cast to the target dtype it would get without sorting. -/
theorem c1_sorting_scrambles_pairs :
    typecast_before_merge c1lhs c1rhs ["a", "b"] ["b", "a"] false false "inner" =
        .ok ⟨c1lhs, c1rhs, [], []⟩ ∧
      casting_rules ⟨c1lhs, c1rhs, [], []⟩ "a" "b" (.num .i 4) (.num .i 8) "inner" =
        .ok (some (.num .i 8), ⟨c1lhs, c1rhs, [], []⟩) :=
  ⟨by decide, by decide⟩

/-! ### Claim C7: validation errors precede every mutation -/

/-- C7: if validation rejects the request, `_merge` raises that very error
and both caller tables are returned in their original, unmutated state —
validation runs before the suffix renames and before any cast. -/
theorem c7_validation_error_no_mutation (engine : Engine) (lhs rhs : Table)
    (onKeys left_on right_on : List String) (li ri : Bool) (ls rs : String)
    (how : String) (sortFlag : Bool) (e : MergeError)
    (h : validate_merge_cfg lhs rhs left_on right_on onKeys how li ri ls rs = .error e) :
    merge engine lhs rhs onKeys left_on right_on li ri ls rs how sortFlag =
      (.error e, lhs, rhs) := by
  unfold merge
  rw [h]

/-- Left table of the C7 witness. -/
def c7lhs : Table := ⟨[("x", ⟨.num .i 8, [some 1]⟩)], exIdx, false⟩

/-- Right table of the C7 witness. -/
def c7rhs : Table := ⟨[("x", ⟨.num .i 8, [some 2]⟩)], exIdx, false⟩

/-- Witness for C7: an invalid `how = "cross"` request errors during
validation and leaves both tables untouched. -/
theorem c7_witness :
    merge dummyEngine c7lhs c7rhs [] ["x"] ["x"] false false "" "" "cross" false =
      (.error (.unsupportedJoinKind "cross"), c7lhs, c7rhs) :=
  c7_validation_error_no_mutation dummyEngine c7lhs c7rhs [] ["x"] ["x"] false false
    "" "" "cross" false (.unsupportedJoinKind "cross") (by decide)

/-! ### Claim C4: when AmbiguousOverlap fires -/

/-- Left table of the C4 counterexample. -/
def c4lhs : Table := ⟨[("id", ⟨.num .i 8, [some 1]⟩)], exIdx, false⟩

/-- Right table of the C4 counterexample. -/
def c4rhs : Table := ⟨[("id", ⟨.num .i 8, [some 2]⟩)], exIdx, false⟩

/-- C4 counterexample: a key named only via `on` *does* trigger
`AmbiguousOverlap` when no suffixes are supplied — validation runs before
`on` is folded into `left_on`/`right_on`, so the shared name `id` is not a
congruent key of the (empty) key lists validation sees, contradicting the
claim that a key named via `on` never triggers the error. -/
theorem c4_counterexample :
    validate_merge_cfg c4lhs c4rhs [] [] ["id"] "inner" false false "" "" =
      .error .ambiguousOverlap := by decide

/-- C4 (amended): provided the earlier validation checks pass, validation
fails with `AmbiguousOverlap` exactly when the two tables share a column
name that is not a congruent key of the `left_on`/`right_on` lists as seen
by validation (keys named via `on` are not yet folded in) and neither
suffix is supplied. -/
theorem c4_overlap_iff (lhs rhs : Table) (left_on right_on onKeys : List String)
    (how : String) (li ri : Bool) (ls rs : String)
    (h1 : (lhs.indexIsMulti || rhs.indexIsMulti) = false)
    (h2 : validHow how = true)
    (h3 : (!onKeys.isEmpty && (!left_on.isEmpty || !right_on.isEmpty)) = false)
    (h4 : left_on.length + (cond li 1 0) = right_on.length + (cond ri 1 0))
    (h5 : (!(li || ri) && !(!left_on.isEmpty || !right_on.isEmpty) &&
      (sharedNames lhs rhs).isEmpty) = false) :
    (validate_merge_cfg lhs rhs left_on right_on onKeys how li ri ls rs =
        .error .ambiguousOverlap) ↔
      ((sharedNames lhs rhs).any (fun n => !congruentKey left_on right_on n) = true ∧
        (!(!ls.isEmpty || !rs.isEmpty)) = true) := by
  unfold validate_merge_cfg
  simp only [h1, h2, h3, h4, h5, Bool.not_true, Bool.false_eq_true, if_false, bne_self_eq_false]
  by_cases hA : ((sharedNames lhs rhs).any (fun n => !congruentKey left_on right_on n) &&
      !(!ls.isEmpty || !rs.isEmpty)) = true
  · rw [if_pos hA]
    rw [Bool.and_eq_true] at hA
    exact ⟨fun _ => hA, fun _ => rfl⟩
  · rw [if_neg hA]
    constructor
    · intro hcontra
      exfalso
      by_cases ho : (!onKeys.isEmpty) = true
      · rw [if_pos ho] at hcontra
        cases hf : onKeys.find? (fun k => !(lhs.hasCol k && rhs.hasCol k)) with
        | some k => rw [hf] at hcontra; simp at hcontra
        | none => rw [hf] at hcontra; simp at hcontra
      · rw [if_neg ho] at hcontra
        cases hf : left_on.find? (fun k => !lhs.hasCol k) with
        | some k => rw [hf] at hcontra; simp at hcontra
        | none =>
          rw [hf] at hcontra
          cases hg : right_on.find? (fun k => !rhs.hasCol k) with
          | some k => rw [hg] at hcontra; simp at hcontra
          | none => rw [hg] at hcontra; simp at hcontra
    · intro hRB
      exact absurd (Bool.and_eq_true .. |>.mpr ⟨hRB.1, hRB.2⟩) hA

/-- Left table of the C4 amended witness: shares non-key `c` with the right
table. -/
def w4lhs : Table := ⟨[("x", ⟨.num .i 8, []⟩), ("c", ⟨.num .i 8, []⟩)], exIdx, false⟩

/-- Right table of the C4 amended witness. -/
def w4rhs : Table := ⟨[("y", ⟨.num .i 8, []⟩), ("c", ⟨.num .i 8, []⟩)], exIdx, false⟩

/-- Witness for the amended C4: a shared non-congruent name with no
suffixes makes validation fail with `AmbiguousOverlap`. -/
theorem c4_witness :
    validate_merge_cfg w4lhs w4rhs ["x"] ["y"] [] "inner" false false "" "" =
      .error .ambiguousOverlap :=
  (c4_overlap_iff w4lhs w4rhs ["x"] ["y"] [] "inner" false false "" ""
    rfl rfl rfl rfl rfl).mpr (by decide)

/-! ### Claim C10: typecasting mutates the caller's tables -/

theorem isCategorical_iff (d : Dtype) :
    d.isCategorical = true ↔ ∃ el cats o, d = .categorical el cats o := by
  cases d <;> simp [Dtype.isCategorical]

/-- Computation of `casting_rules` when the left key is categorical, the
right key is not, and `how` is a validated kind: the categories dtype is
returned, the key is marked for code substitution, and the `<name>_codes`
column is appended to the left table (for `how = "left"` this happens
through the recursive `"inner"` call, with an upcast warning). -/
theorem casting_rules_cat_left_codes (lhs rhs : Table) (lcol rcol : String)
    (cl cr : Column) (el : Dtype) (cats : List Int) (o : Bool) (how : String)
    (hcld : cl.dtype = .categorical el cats o)
    (hne : cl.dtype ≠ cr.dtype) (hncat : cr.dtype.isCategorical = false)
    (hl : lhs.get lcol = some cl) (hr : rhs.get rcol = some cr)
    (hhow : how = "left" ∨ how = "inner" ∨ how = "outer") :
    casting_rules ⟨lhs, rhs, [], []⟩ lcol rcol cl.dtype cr.dtype how =
      .ok (some el, ⟨lhs.set (lcol ++ "_codes") cl.catCodes, rhs, [lcol],
        if how = "left" then [⟨rcol, "right", cr.dtype, cl.dtype, some el⟩] else []⟩) := by
  have hbothcat : (cl.dtype.isCategorical && cr.dtype.isCategorical) = false := by
    rw [hncat, Bool.and_false]
  have hlget : (⟨lhs, rhs, [], []⟩ : CastState).lhs.get lcol = some cl := hl
  have hrget : (⟨lhs, rhs, [], []⟩ : CastState).rhs.get rcol = some cr := hr
  have hinner : casting_rules_inner ⟨lhs, rhs, [], []⟩ lcol rcol cl.dtype cr.dtype =
      .ok (some el, ⟨lhs.set (lcol ++ "_codes") cl.catCodes, rhs, [lcol], []⟩) := by
    unfold casting_rules_inner casting_rules_rest
    rw [if_neg hne, hbothcat]
    simp only [Bool.false_eq_true, if_false, if_true]
    rw [hcld]
    simp only [Dtype.isCategorical, if_true, if_false]
    rw [hlget]
    dsimp only
    rw [hcld]
    dsimp only
    simp
  rcases hhow with rfl | rfl | rfl
  · unfold casting_rules
    rw [if_neg hne, hbothcat]
    simp only [Bool.false_eq_true, if_false, if_true]
    rw [hrget]
    dsimp only
    have hfalse : (cr.fillna 0).can_cast_safely cl.dtype = false := by
      rw [hcld]; exact can_cast_safely_cat _ el cats o
    rw [hfalse]
    simp only [Bool.false_eq_true, if_false, if_true]
    rw [hinner]
    simp
  · unfold casting_rules
    rw [if_neg hne, hbothcat]
    simp only [Bool.false_eq_true, if_false, if_true]
    unfold casting_rules_rest
    rw [hcld]
    simp only [Dtype.isCategorical, if_true, if_false]
    rw [hlget]
    dsimp only
    rw [hcld]
    dsimp only
    simp
  · unfold casting_rules
    rw [if_neg hne, hbothcat]
    simp only [Bool.false_eq_true, if_false, if_true]
    unfold casting_rules_rest
    rw [hcld]
    simp only [Dtype.isCategorical, if_true, if_false]
    rw [hlget]
    dsimp only
    rw [hcld]
    dsimp only
    simp

/-- C10: for a single key pair with unequal dtypes whose unification finds
a target dtype `t`, `_typecast_before_merge` replaces both key columns of
the caller's tables in place by their `astype t` casts (on top of any
mutation `casting_rules` already performed), and when the key is
categorical on the left only (under a validated `how`), the new
`<name>_codes` column has been appended to the left input table itself. -/
theorem c10_typecast_mutates (lhs rhs : Table) (lcol rcol : String) (how : String)
    (cl cr cl2 cr2 : Column) (t : Dtype) (st2 : CastState)
    (hl : lhs.get lcol = some cl) (hr : rhs.get rcol = some cr)
    (hne : cl.dtype ≠ cr.dtype)
    (hcr : casting_rules ⟨lhs, rhs, [], []⟩ lcol rcol cl.dtype cr.dtype how =
      .ok (some t, st2))
    (hl2 : st2.lhs.get lcol = some cl2) (hr2 : st2.rhs.get rcol = some cr2) :
    typecast_before_merge lhs rhs [lcol] [rcol] false false how =
        .ok ⟨st2.lhs.set lcol (cl2.astype t), st2.rhs.set rcol (cr2.astype t),
          st2.toCategorical, st2.warnings⟩ ∧
      ((how = "left" ∨ how = "inner" ∨ how = "outer") →
        cl.dtype.isCategorical = true → cr.dtype.isCategorical = false →
        st2.lhs.hasCol (lcol ++ "_codes") = true) := by
  constructor
  · unfold typecast_before_merge
    rw [if_neg (by simp)]
    show typecastPairs how ⟨lhs, rhs, [], []⟩ [(lcol, rcol)] = _
    unfold typecastPairs
    have hlget : (⟨lhs, rhs, [], []⟩ : CastState).lhs.get lcol = some cl := hl
    have hrget : (⟨lhs, rhs, [], []⟩ : CastState).rhs.get rcol = some cr := hr
    rw [hlget, hrget]
    dsimp only
    rw [if_neg hne, hcr]
    dsimp only
    rw [hl2, hr2]
    rfl
  · intro hhow hcat hncat
    rcases (isCategorical_iff cl.dtype).mp hcat with ⟨el, cats, o, hd⟩
    have hcr2 := casting_rules_cat_left_codes lhs rhs lcol rcol cl cr el cats o how
      hd hne hncat hl hr hhow
    have hpair := hcr2.symm.trans hcr
    simp only [Except.ok.injEq, Prod.mk.injEq] at hpair
    rw [← hpair.2]
    exact Table.hasCol_set_self lhs (lcol ++ "_codes") cl.catCodes

/-- Left table of the C10 witness: key `a` is categorical with `int64`
categories `[10, 20]`. -/
def w10lhs : Table :=
  ⟨[("a", ⟨.categorical (.num .i 8) [10, 20] false, [some 0, some 1]⟩)], exIdx, false⟩

/-- Right table of the C10 witness: key `a` is `int64`. -/
def w10rhs : Table := ⟨[("a", ⟨.num .i 8, [some 10]⟩)], exIdx, false⟩

/-- The left key column of the C10 witness. -/
def w10cl : Column := ⟨.categorical (.num .i 8) [10, 20] false, [some 0, some 1]⟩

/-- The right key column of the C10 witness. -/
def w10cr : Column := ⟨.num .i 8, [some 10]⟩

/-- The state after `casting_rules` in the C10 witness: `a_codes` appended
to the left table, the key marked for code substitution. -/
def w10st2 : CastState :=
  ⟨⟨[("a", w10cl), ("a_codes", ⟨.num .i 4, [some 0, some 1]⟩)], exIdx, false⟩,
    w10rhs, ["a"], []⟩

/-- Witness for C10: the categorical left key under `how = "inner"` — both
key columns replaced in place by their casts to the categories dtype
`int64`, and `a_codes` appended to the left input table. -/
theorem c10_witness :
    typecast_before_merge w10lhs w10rhs ["a"] ["a"] false false "inner" =
        .ok ⟨w10st2.lhs.set "a" (w10cl.astype (.num .i 8)),
          w10st2.rhs.set "a" (w10cr.astype (.num .i 8)),
          w10st2.toCategorical, w10st2.warnings⟩ ∧
      (("inner" : String) = "left" ∨ ("inner" : String) = "inner" ∨
          ("inner" : String) = "outer" →
        w10cl.dtype.isCategorical = true → w10cr.dtype.isCategorical = false →
        w10st2.lhs.hasCol ("a" ++ "_codes") = true) :=
  c10_typecast_mutates w10lhs w10rhs "a" "a" "inner" w10cl w10cr w10cl w10cr
    (.num .i 8) w10st2 rfl rfl (by decide) (by decide) rfl rfl

/-! ### Claim C3: full consumption is checked only when sort is false -/

/-- The engine-output column shared by the C3 fixtures. -/
def cJ : Column := ⟨.num .i 8, [some 7]⟩

/-- A join-engine test double returning an extra, unplaceable column
`junk` alongside the two key columns. -/
def junkEngine : Engine := fun _ _ _ _ _ _ _ => [("a", cJ), ("b", cJ), ("junk", cJ)]

/-- Left table of the C3 counterexample. -/
def c3lhs : Table := ⟨[("a", ⟨.num .i 8, [some 1]⟩)], exIdx, false⟩

/-- Right table of the C3 counterexample. -/
def c3rhs : Table := ⟨[("b", ⟨.num .i 8, [some 1]⟩)], exIdx, false⟩

/-- C3 counterexample: with `sort = true`, a merge whose engine returns the
extra column `junk` succeeds and silently drops that column (the result
holds exactly `a` and `b`) — it does not fail with
`UnconsumedEngineColumn`, contradicting the claim's "any value of sort". -/
theorem c3_counterexample :
    (merge junkEngine c3lhs c3rhs [] ["a"] ["b"] false false "" "" "inner" true).1 =
      .ok [("a", cJ), ("b", cJ)] := by decide

/-- C3 (amended): only the `sort = false` assembly enforces full
consumption.  Whenever the codes pass completes, the assembly fails — and
fails with `UnconsumedEngineColumn` — exactly when the pool is not empty
after the original-names pass and the codes pass; and the engine output is
always the pool split `taken ++ codes ++ leftover` up to permutation, so a
successful assembly has consumed every engine column exactly once. -/
theorem c3_nosort_consumption (lhsNames rhsNames lon ron org toCat : List String)
    (gdf cds p2 : List (String × Column))
    (h : codesPass toCat (collectFirst org gdf).2 = .ok (cds, p2)) :
    assemble false lhsNames rhsNames lon ron org toCat gdf =
        (if p2.length = 0 then .ok (collectFirst org gdf).1
         else .error .unconsumedEngineColumn) ∧
      gdf.Perm ((collectFirst org gdf).1 ++ cds ++ p2) := by
  constructor
  · unfold assemble
    rw [if_neg (by simp)]
    simp only [h]
  · have h1 := collectFirst_perm org gdf
    have h2 := codesPass_perm toCat (collectFirst org gdf).2 cds p2 h
    rw [List.append_assoc]
    exact h1.trans (h2.append_left _)

/-- Witness for the amended C3: original names `["a"]`, engine output with
an unexpected second column `x` — the assembly fails with
`UnconsumedEngineColumn` and the pool splits as `[a] ++ [] ++ [x]`. -/
theorem c3_witness :
    assemble false ["a"] ["b"] ["a"] ["b"] ["a"] [] [("a", cJ), ("x", cJ)] =
        (if ([("x", cJ)] : List (String × Column)).length = 0 then
          .ok (collectFirst ["a"] [("a", cJ), ("x", cJ)]).1
         else .error .unconsumedEngineColumn) ∧
      ([("a", cJ), ("x", cJ)] : List (String × Column)).Perm
        ((collectFirst ["a"] [("a", cJ), ("x", cJ)]).1 ++ [] ++ [("x", cJ)]) :=
  c3_nosort_consumption ["a"] ["b"] ["a"] ["b"] ["a"] [] [("a", cJ), ("x", cJ)]
    [] [("x", cJ)] rfl

/-! ### Claim C5: column order of the sorted assembly -/

/-- C5: when `sort` is true and the engine output consists (in any order
captured by the name-list hypothesis) of the lhs non-key columns, the
deduplicated join-key columns and the rhs non-key columns, with no
duplicate names, the assembled result is: lhs non-key columns, then the
key columns, then rhs non-key columns — each of the three groups sorted by
name internally, the groups themselves kept in (lhs, keys, rhs) order. -/
theorem c5_sort_partition_order (lhsNames rhsNames lon ron org toCat : List String)
    (gdf : List (String × Column))
    (hg : gdf.map Prod.fst =
      lhsNames.filter (fun n => !(lon.contains n)) ++
        ((lhsNames ++ rhsNames).filter (fun n => lon.contains n || ron.contains n)).dedup ++
        rhsNames.filter (fun n => !(ron.contains n)))
    (hnd : (gdf.map Prod.fst).Nodup) :
    ∃ res, assemble true lhsNames rhsNames lon ron org toCat gdf = .ok res ∧
      res.map Prod.fst =
        sortStrings (lhsNames.filter (fun n => !(lon.contains n))) ++
          sortStrings (((lhsNames ++ rhsNames).filter
            (fun n => lon.contains n || ron.contains n)).dedup) ++
          sortStrings (rhsNames.filter (fun n => !(ron.contains n))) := by
  set A := lhsNames.filter (fun n => !(lon.contains n)) with hAdef
  set B := (lhsNames ++ rhsNames).filter (fun n => lon.contains n || ron.contains n) with hBdef
  set C := rhsNames.filter (fun n => !(ron.contains n)) with hCdef
  -- nodup and disjointness of the three name groups
  have hnd' : (A ++ (B.dedup ++ C)).Nodup := by
    rw [← List.append_assoc, ← hg]; exact hnd
  rw [List.nodup_append] at hnd'
  rcases hnd' with ⟨hAnd, hKCnd, hAdisj⟩
  have hKCnd' := hKCnd
  rw [List.nodup_append] at hKCnd'
  rcases hKCnd' with ⟨hKnd, hCnd, hKdisj⟩
  -- membership facts
  have hKA : ∀ x ∈ B.dedup, x ∉ A := fun x hx hxA =>
    hAdisj hxA (List.mem_append_left C hx)
  have hCA : ∀ x ∈ C, x ∉ A := fun x hx hxA =>
    hAdisj hxA (List.mem_append_right B.dedup hx)
  have hCB : ∀ x ∈ C, x ∉ B := fun x hx hxB => hKdisj (List.mem_dedup.mpr hxB) hx
  -- first pass: takes A, leaves B.dedup ++ C
  obtain ⟨h1t, h1r⟩ := collectFirst_names A gdf hnd
  rw [hg] at h1t h1r
  have hfA : (A ++ B.dedup ++ C).filter (fun n => A.contains n) = A := by
    rw [List.filter_append, List.filter_append]
    rw [List.filter_eq_self.mpr (fun x hx => by simp [hx])]
    rw [List.filter_eq_nil_iff.mpr (fun x hx => by simp [hKA x hx])]
    rw [List.filter_eq_nil_iff.mpr (fun x hx => by simp [hCA x hx])]
    simp
  have hfA' : (A ++ B.dedup ++ C).filter (fun n => !(A.contains n)) = B.dedup ++ C := by
    rw [List.filter_append, List.filter_append]
    rw [List.filter_eq_nil_iff.mpr (fun x hx => by simp [hx])]
    rw [List.filter_eq_self.mpr (fun x hx => by simp [hKA x hx])]
    rw [List.filter_eq_self.mpr (fun x hx => by simp [hCA x hx])]
    simp
  rw [hfA] at h1t
  rw [hfA'] at h1r
  -- second pass: takes B.dedup, leaves C
  have h1rnd : ((collectFirst A gdf).2.map Prod.fst).Nodup := by
    rw [h1r]; exact hKCnd
  obtain ⟨h2t, h2r⟩ := collectFirst_names B (collectFirst A gdf).2 h1rnd
  rw [h1r] at h2t h2r
  have hfB : (B.dedup ++ C).filter (fun n => B.contains n) = B.dedup := by
    rw [List.filter_append]
    rw [List.filter_eq_self.mpr (fun x hx => by simp [List.mem_dedup.mp hx])]
    rw [List.filter_eq_nil_iff.mpr (fun x hx => by simp [hCB x hx])]
    simp
  have hfB' : (B.dedup ++ C).filter (fun n => !(B.contains n)) = C := by
    rw [List.filter_append]
    rw [List.filter_eq_nil_iff.mpr (fun x hx => by simp [List.mem_dedup.mp hx])]
    rw [List.filter_eq_self.mpr (fun x hx => by simp [hCB x hx])]
    simp
  rw [hfB] at h2t
  rw [hfB'] at h2r
  -- third pass: takes C
  have h2rnd : ((collectFirst B (collectFirst A gdf).2).2.map Prod.fst).Nodup := by
    rw [h2r]; exact hCnd
  obtain ⟨h3t, _⟩ := collectFirst_names C (collectFirst B (collectFirst A gdf).2).2 h2rnd
  rw [h2r] at h3t
  rw [List.filter_eq_self.mpr (fun x hx => by simp [hx])] at h3t
  -- assemble the name equation
  have hmain : ((sortEntries (collectFirst A gdf).1 ++
      sortEntries (collectFirst B (collectFirst A gdf).2).1 ++
      sortEntries (collectFirst C (collectFirst B (collectFirst A gdf).2).2).1).map
        Prod.fst) = sortStrings A ++ sortStrings B.dedup ++ sortStrings C := by
    rw [List.map_append, List.map_append]
    rw [map_fst_sortEntries, map_fst_sortEntries, map_fst_sortEntries]
    rw [sortStrings_eq_of_perm h1t, sortStrings_eq_of_perm h2t, sortStrings_eq_of_perm h3t]
  exact ⟨_, rfl, hmain⟩

/-- Witness for C5 at the specification's example: lhs columns
`[b, a, id]`, rhs columns `[id, z, y]`, join key `id`, sort=true gives the
output column order `[a, b, id, y, z]`. -/
theorem c5_witness :
    ∃ res, assemble true ["b", "a", "id"] ["id", "z", "y"] ["id"] ["id"] [] []
        [("b", cJ), ("a", cJ), ("id", cJ), ("z", cJ), ("y", cJ)] = .ok res ∧
      res.map Prod.fst = ["a", "b", "id", "y", "z"] :=
  c5_sort_partition_order ["b", "a", "id"] ["id", "z", "y"] ["id"] ["id"] [] []
    [("b", cJ), ("a", cJ), ("id", cJ), ("z", cJ), ("y", cJ)] (by decide) (by decide)

end CudfMerge
